import Mathlib

/-!
Shallow embedding of the connection scheduler of this repository
(`src/unnamed/part_000`, the variant the specification's claims cite, whose
named twin is `src/src/ConnectionManager.js`).

A connection is an opaque object with a mutable state `INIT`, `OPEN` or
`CLOSED`; the manager keeps a single Immutable.js `List` of queue items,
each pairing a connection with a priority, kept sorted by priority
descending (`sortBy(listItem => -1 * listItem.priority)`, a stable sort).
Connections are identified here by a natural number `cid`; since every
list entry holding a given connection shows that connection's current
state, the state is stored inside the item and the state-setting
operations (`open()` / `close()`) update every entry with that `cid`.

`ConnectionQueueItem` itself is not under `src/`.  Modelled from the spec:
a Queue Entry is `{ resourceIdentity, priority, enqueuedAt }` and equality
is by `resourceIdentity` only, so `listItem.equals(item)` becomes a `cid`
comparison, and `enqueuedAt` is carried as a ghost field `seq` (the
creation order of the logical entry); `seq` never influences control flow,
exactly as a timestamp used by no comparison in the source.

Deferred closes (`setTimeout(() => connection.close(), 0)`) are recorded
as `Eff.closed` effects: at that point the connection has already been
removed from the list (or was never stored), so the pending close is
invisible to every later queue computation, and the completion event it
eventually fires is modelled by the ordinary `Ev.done` event.
-/

namespace ConnMgr

unseal Rat.mul Rat.inv

/-- Connection lifecycle states of `AbstractConnection`. -/
inductive CState where
  | INIT
  | OPEN
  | CLOSED
deriving DecidableEq, Repr

/-- A queue entry: connection identity, priority, the connection's current
state, and the ghost enqueue-order stamp `seq` (the spec's `enqueuedAt`). -/
structure Item where
  cid : Nat
  priority : ℚ
  state : CState
  seq : Nat
deriving DecidableEq, Repr

/-- Observable calls issued to connections. -/
inductive Eff where
  | opened (cid : Nat)
  | closed (cid : Nat)
deriving DecidableEq, Repr

/-- Scheduler configuration: `maxConnections` and the preemption
`threshold` of the constructor. -/
structure Cfg where
  maxConnections : Nat
  threshold : ℚ
deriving DecidableEq, Repr

/-- Count of entries whose connection is `OPEN`
(`list.count(listItem => listItem.connection.state === OPEN)`). -/
def countOpen (l : List Item) : Nat :=
  (l.filter (fun it => it.state == .OPEN)).length

/-- Count of entries whose connection is `INIT`. -/
def countInit (l : List Item) : Nat :=
  (l.filter (fun it => it.state == .INIT)).length

/-- First waiting entry
(`list.find(listItem => listItem.connection.state === INIT)`). -/
def findInit (l : List Item) : Option Item :=
  l.find? (fun it => it.state == .INIT)

/-- Last open entry
(`list.findLast(listItem => listItem.connection.state === OPEN)`). -/
def findLastOpen (l : List Item) : Option Item :=
  l.reverse.find? (fun it => it.state == .OPEN)

/-- Effect on the queue of `connection.open(...)`: every entry holding this
connection now observes state `OPEN`. -/
def setOpen (l : List Item) (c : Nat) : List Item :=
  l.map (fun it => if it.cid = c then { it with state := .OPEN } else it)

/-- Effect on the queue of the connection reaching `CLOSED`. -/
def setClosed (l : List Item) (c : Nat) : List Item :=
  l.map (fun it => if it.cid = c then { it with state := .CLOSED } else it)

/-- Stable insertion into a descending-sorted list: the element goes after
every strictly-higher-priority entry and before the first entry of equal
or lower priority. -/
def insertDesc (a : Item) : List Item → List Item
  | [] => [a]
  | b :: t => if b.priority ≤ a.priority then a :: b :: t else b :: insertDesc a t

/-- The source's `.sortBy(listItem => -1 * listItem.priority)`: a stable
sort on ascending `-priority`, i.e. descending `priority`; equal
priorities keep their relative order.  Realised as stable insertion sort,
extensionally identical to any stable sort by this key. -/
def sortDesc : List Item → List Item
  | [] => []
  | a :: t => insertDesc a (sortDesc t)

/-- Immutable.js `List.update(index, updater)` as used at the end of
`update`: writes at `index`, and when the index is at (or past) the end
of the list the list grows to include it.  In the manager the index can
exceed the end by at most one (the list shrinks by at most the one entry
evicted by `requestFreeSlot` between computing the index and this write),
so growing is plain appending. -/
def listWrite (l : List Item) (idx : Nat) (v : Item) : List Item :=
  if idx < l.length then l.set idx v else l ++ [v]

/-- `openConnection`: open the connection (its state becomes `OPEN` in
every entry holding it) and record the `open()` call. -/
def openConnection (l : List Item) (c : Nat) : List Item × List Eff :=
  (setOpen l c, [.opened c])

/-- Fuelled body of the reconciliation pass `next()`.  Each recursive call
opens one waiting connection, so `countInit l` units of fuel always
suffice and the out-of-fuel branch is unreachable (see `next_unfold`). -/
def nextGo (mx : Nat) : Nat → List Item → List Item × List Eff
  | 0, l =>
    if countOpen l ≥ mx ∨ l.length = countOpen l then (l, [])
    else
      match findInit l with
      | none => (l, [])
      | some _ => (l, [])
  | f + 1, l =>
    if countOpen l ≥ mx ∨ l.length = countOpen l then (l, [])
    else
      match findInit l with
      | none => (l, [])
      | some it =>
        let r := nextGo mx f (setOpen l it.cid)
        (r.1, .opened it.cid :: r.2)

/-- The reconciliation pass `next()`: while a slot is free and a waiting
connection exists, open the first waiting connection and recurse. -/
def next (mx : Nat) (l : List Item) : List Item × List Eff :=
  nextGo mx (countInit l) l

/-- Source `requestFreeSlot(newItem)`: returns whether a slot is free,
possibly after evicting the last (lowest-priority) open entry when its
priority is below `newItem.priority * threshold`.  The result bundles the
JS boolean, the possibly shrunk list, and the close call issued to the
evicted connection (a `setTimeout(() => item.connection.close(), 0)`). -/
def requestFreeSlot (cfg : Cfg) (l : List Item) (newItem : Item) :
    Bool × List Item × List Eff :=
  match findLastOpen l with
  | none => (true, l, [])
  | some it =>
    if countOpen l < cfg.maxConnections then (true, l, [])
    else if it.priority < newItem.priority * cfg.threshold then
      (true, l.filter (fun x => x.cid != it.cid), [.closed it.cid])
    else (false, l, [])

/-- Source `push(item)`: admit a new (untracked) item.  An `OPEN` item that
cannot get a slot is force-closed and the list is returned untouched;
otherwise the item is appended (opened first when it is `INIT` and a slot
is free) and the list re-sorted. -/
def push (cfg : Cfg) (l : List Item) (item : Item) : List Item × List Eff :=
  if item.state = .OPEN then
    match requestFreeSlot cfg l item with
    | (false, l1, e1) => (l1, e1 ++ [.closed item.cid])
    | (true, l1, e1) => (sortDesc (l1 ++ [item]), e1)
  else if item.state = .INIT then
    match requestFreeSlot cfg l item with
    | (true, l1, e1) =>
      (sortDesc (l1 ++ [{ item with state := .OPEN }]), e1 ++ [.opened item.cid])
    | (false, l1, e1) => (sortDesc (l1 ++ [item]), e1)
  else
    (sortDesc (l ++ [item]), [])

/-- Source `update(index, priority)` for an already-tracked item.  The
`.error` results are the two places where the JS code dereferences a value
that can be `undefined`: `context.list.get(index)` (never hit from
`schedule`) and, crucially, `context.list.find(INIT).priority` in the
decrease-while-full branch, a `TypeError` when no waiting entry exists.
The final branch mirrors `list.update(index, ...).sortBy(...)`, writing a
fresh `ConnectionQueueItem` for the same connection at the stale `index`
(see `listWrite`); the ghost `seq` follows the logical entry. -/
def update (cfg : Cfg) (l : List Item) (idx : Nat) (p : ℚ) :
    Except Unit (List Item × List Eff) :=
  match l.get? idx with
  | none => .error ()
  | some item =>
    if item.priority = p then .ok (l, [])
    else if item.state = .OPEN ∧ p < item.priority ∧
        countOpen l = cfg.maxConnections then
      match findInit l with
      | none => .error ()
      | some w =>
        if w.priority * cfg.threshold > p then
          .ok (l.filter (fun x => x.cid != item.cid), [.closed item.cid])
        else
          .ok (sortDesc (listWrite l idx
            { cid := item.cid, priority := p, state := item.state,
              seq := item.seq }), [])
    else if item.state = .INIT ∧ p > item.priority then
      match requestFreeSlot cfg l item with
      | (true, l1, e1) =>
        .ok (sortDesc (listWrite (setOpen l1 item.cid) idx
          { cid := item.cid, priority := p, state := .OPEN,
            seq := item.seq }), e1 ++ [.opened item.cid])
      | (false, l1, e1) =>
        .ok (sortDesc (listWrite l1 idx
          { cid := item.cid, priority := p, state := item.state,
            seq := item.seq }), e1)
    else
      .ok (sortDesc (listWrite l idx
        { cid := item.cid, priority := p, state := item.state,
          seq := item.seq }), [])

/-- Source `schedule(connection, priority)`.  A connection already in the
list is the very object stored there, so its state is the stored one; for
an untracked connection the caller-visible state `ext` is used.  `CLOSED`
connections are ignored; tracked ones are updated via `findIndex`; new
ones are pushed.  `seq` is the ghost enqueue stamp for a fresh entry. -/
def schedule (cfg : Cfg) (l : List Item) (c : Nat) (ext : CState) (p : ℚ)
    (seq : Nat) : Except Unit (List Item × List Eff) :=
  let st := match l.find? (fun it => it.cid == c) with
            | some it => it.state
            | none => ext
  if st = .CLOSED then .ok (l, [])
  else
    match l.findIdx? (fun it => it.cid == c) with
    | some idx => update cfg l idx p
    | none => .ok (push cfg l { cid := c, priority := p, state := st, seq := seq })

/-- The value the source `schedule` hands back to the caller: every one of
its paths ends in a bare `return;`, so the caller always receives
`undefined` (here `none`), although the doc comment promises
`@return {bool} - true if the connection was added, false if not`. -/
def scheduleReturnValue : Option Bool := none

/-- Source `lowestOpenPriority()`: `item ? item.priority : 0`. -/
def lowestOpenPriority (l : List Item) : ℚ :=
  match findLastOpen l with
  | some it => it.priority
  | none => 0

/-- Source `highestWaitingPriority()`: `item ? item.priority : 0`. -/
def highestWaitingPriority (l : List Item) : ℚ :=
  match findInit l with
  | some it => it.priority
  | none => 0

/-- Source `handleConnectionComplete` (also the abort and error handlers):
the connection has reached `CLOSED`, listeners are removed, and `next()`
is run.  The queue entry is NOT removed in this variant. -/
def handleConnectionComplete (cfg : Cfg) (l : List Item) (c : Nat) :
    List Item × List Eff :=
  next cfg.maxConnections (setClosed l c)

/-- Manager state: the queue plus the ghost counter stamping fresh
entries. -/
structure St where
  list : List Item
  counter : Nat
deriving DecidableEq, Repr

/-- External events: a `schedule(connection, priority)` call (with the
caller-side state of an untracked connection) or a completion / abort /
error notification for a connection. -/
inductive Ev where
  | sched (c : Nat) (ext : CState) (p : ℚ)
  | done (c : Nat)
deriving DecidableEq, Repr

/-- One event step of the manager. -/
def stepEv (cfg : Cfg) (s : St) : Ev → Except Unit (St × List Eff)
  | .sched c ext p =>
    match schedule cfg s.list c ext p s.counter with
    | .ok (l2, e) => .ok (⟨l2, s.counter + 1⟩, e)
    | .error u => .error u
  | .done c =>
    let r := handleConnectionComplete cfg s.list c
    .ok (⟨r.1, s.counter⟩, r.2)

/-- Run a sequence of events, collecting all effects. -/
def runEvents (cfg : Cfg) (s : St) : List Ev → Except Unit (St × List Eff)
  | [] => .ok (s, [])
  | e :: es =>
    match stepEv cfg s e with
    | .ok (s2, effs) =>
      match runEvents cfg s2 es with
      | .ok (s3, effs2) => .ok (s3, effs ++ effs2)
      | .error u => .error u
    | .error u => .error u

/-- The empty initial state. -/
def st0 : St := ⟨[], 0⟩

/-- Reachability: states produced by any sequence of schedule calls and
completion notifications from the empty queue. -/
inductive Reach (cfg : Cfg) : St → Prop where
  | base : Reach cfg st0
  | step {s s2 : St} {e : Ev} {effs : List Eff} :
      Reach cfg s → stepEv cfg s e = .ok (s2, effs) → Reach cfg s2

/-- The queue ordering the spec demands after every mutation: priorities
descending. -/
def SortedDesc (l : List Item) : Prop :=
  List.Pairwise (fun a b => b.priority ≤ a.priority) l

/-- Spec ordering among equal priorities: ties broken by enqueue order
(`enqueuedAt` ascending, here the ghost `seq`). -/
def FifoTies (l : List Item) : Prop :=
  List.Pairwise (fun a b => a.priority = b.priority → a.seq ≤ b.seq) l

theorem countInit_setOpen_le (l : List Item) (c : Nat) :
    countInit (setOpen l c) ≤ countInit l := by
  induction l with
  | nil => simp [countInit, setOpen]
  | cons a t ih =>
    by_cases hc : a.cid = c <;>
      by_cases ha : a.state = CState.INIT <;>
      (simp_all [countInit, setOpen, List.filter_cons]; try omega)

theorem countInit_setOpen_lt (l : List Item) (it : Item)
    (h : findInit l = some it) :
    countInit (setOpen l it.cid) < countInit l := by
  induction l with
  | nil => simp [findInit] at h
  | cons a t ih =>
    rw [findInit, List.find?_cons] at h
    by_cases ha : a.state = CState.INIT
    · have hb : (a.state == CState.INIT) = true := by simp [ha]
      rw [hb] at h
      injection h with h2
      subst h2
      have h1 := countInit_setOpen_le t a.cid
      simp_all [countInit, setOpen, List.filter_cons]
      omega
    · have hb : (a.state == CState.INIT) = false := by simp [ha]
      rw [hb] at h
      have h1 := ih h
      by_cases hc : a.cid = it.cid <;>
        (simp_all [countInit, setOpen, List.filter_cons]; try omega)

theorem findInit_eq_none_of_countInit (l : List Item)
    (h : countInit l = 0) : findInit l = none := by
  rw [findInit, List.find?_eq_none]
  intro x hx hpx
  have hm : x ∈ l.filter (fun it => it.state == CState.INIT) :=
    List.mem_filter.mpr ⟨hx, hpx⟩
  rw [countInit, List.length_eq_zero] at h
  rw [h] at hm
  exact absurd hm (List.not_mem_nil x)

theorem nextGo_congr (mx : Nat) :
    ∀ f1 f2 l, countInit l ≤ f1 → countInit l ≤ f2 →
      nextGo mx f1 l = nextGo mx f2 l := by
  intro f1
  induction f1 with
  | zero =>
    intro f2 l h1 _
    have hn : findInit l = none :=
      findInit_eq_none_of_countInit l (Nat.le_zero.mp h1)
    cases f2 <;> simp only [nextGo, hn, ite_self]
  | succ f ih =>
    intro f2 l h1 h2
    by_cases hg : countOpen l ≥ mx ∨ l.length = countOpen l
    · cases f2 <;> simp only [nextGo, if_pos hg]
    · cases hf : findInit l with
      | none => cases f2 <;> simp only [nextGo, if_neg hg, hf, ite_self]
      | some it =>
        have hlt := countInit_setOpen_lt l it hf
        have hpos : 0 < countInit l := by
          by_contra hz
          have hn := findInit_eq_none_of_countInit l (by omega)
          rw [hn] at hf
          exact absurd hf (by simp)
        cases f2 with
        | zero => omega
        | succ f3 =>
          simp only [nextGo, if_neg hg, hf]
          rw [ih f3 (setOpen l it.cid) (by omega) (by omega)]

/-- Unfolding equation of `next`, mirroring the source recursion. -/
theorem next_unfold (mx : Nat) (l : List Item) :
    next mx l =
      if countOpen l ≥ mx ∨ l.length = countOpen l then (l, [])
      else
        match findInit l with
        | none => (l, [])
        | some it =>
          let r := next mx (setOpen l it.cid)
          (r.1, .opened it.cid :: r.2) := by
  by_cases hg : countOpen l ≥ mx ∨ l.length = countOpen l
  · rw [if_pos hg]
    unfold next
    cases hc : countInit l <;> simp only [nextGo, if_pos hg]
  · rw [if_neg hg]
    unfold next
    cases hf : findInit l with
    | none =>
      cases hc : countInit l <;> simp only [nextGo, if_neg hg, hf]
    | some it =>
      have hlt := countInit_setOpen_lt l it hf
      have hpos : 0 < countInit l := by
        by_contra hz
        have hn := findInit_eq_none_of_countInit l (by omega)
        rw [hn] at hf
        exact absurd hf (by simp)
      cases hc : countInit l with
      | zero => omega
      | succ k =>
        simp only [nextGo, if_neg hg, hf]
        rw [nextGo_congr mx k (countInit (setOpen l it.cid))
          (setOpen l it.cid) (by omega) (by omega)]

theorem mem_insertDesc (a x : Item) :
    ∀ l : List Item, x ∈ insertDesc a l ↔ x = a ∨ x ∈ l := by
  intro l
  induction l with
  | nil => simp [insertDesc]
  | cons b t ih =>
    by_cases hb : b.priority ≤ a.priority
    · simp [insertDesc, hb]
    · simp only [insertDesc, if_neg hb, List.mem_cons, ih]
      tauto

theorem sortedDesc_insertDesc (a : Item) :
    ∀ l : List Item, SortedDesc l → SortedDesc (insertDesc a l) := by
  intro l
  induction l with
  | nil => intro _; simp [insertDesc, SortedDesc]
  | cons b t ih =>
    intro hs
    rcases (List.pairwise_cons.mp hs) with ⟨hb1, hb2⟩
    by_cases hb : b.priority ≤ a.priority
    · rw [SortedDesc, insertDesc, if_pos hb]
      refine List.pairwise_cons.mpr ⟨?_, hs⟩
      intro x hx
      rcases List.mem_cons.mp hx with rfl | hxt
      · exact hb
      · exact le_trans (hb1 x hxt) hb
    · rw [SortedDesc, insertDesc, if_neg hb]
      refine List.pairwise_cons.mpr ⟨?_, ih hb2⟩
      intro x hx
      rcases (mem_insertDesc a x t).mp hx with rfl | hxt
      · exact le_of_not_le hb
      · exact hb1 x hxt

theorem sortedDesc_sortDesc : ∀ l : List Item, SortedDesc (sortDesc l) := by
  intro l
  induction l with
  | nil => simp [sortDesc, SortedDesc]
  | cons a t ih => exact sortedDesc_insertDesc a (sortDesc t) ih

theorem mem_sortDesc (x : Item) : ∀ l : List Item, x ∈ sortDesc l ↔ x ∈ l := by
  intro l
  induction l with
  | nil => simp [sortDesc]
  | cons a t ih =>
    rw [sortDesc, mem_insertDesc, ih, List.mem_cons]

theorem sortedDesc_filter (l : List Item) (p : Item → Bool)
    (hs : SortedDesc l) : SortedDesc (l.filter p) :=
  List.Pairwise.sublist (List.filter_sublist l) hs

theorem sortedDesc_of_map_priority_eq (l1 l2 : List Item)
    (h : l1.map (fun it => it.priority) = l2.map (fun it => it.priority))
    (hs : SortedDesc l1) : SortedDesc l2 := by
  have h1 : List.Pairwise (fun a b : ℚ => b ≤ a)
      (l1.map (fun it => it.priority)) :=
    (List.pairwise_map).mpr hs
  rw [h] at h1
  exact (List.pairwise_map).mp h1

theorem map_priority_setOpen (l : List Item) (c : Nat) :
    (setOpen l c).map (fun it => it.priority) =
      l.map (fun it => it.priority) := by
  induction l with
  | nil => rfl
  | cons a t ih =>
    by_cases hc : a.cid = c <;> simp [setOpen, hc] at ih ⊢ <;> exact ih

theorem map_priority_setClosed (l : List Item) (c : Nat) :
    (setClosed l c).map (fun it => it.priority) =
      l.map (fun it => it.priority) := by
  induction l with
  | nil => rfl
  | cons a t ih =>
    by_cases hc : a.cid = c <;> simp [setClosed, hc] at ih ⊢ <;> exact ih

theorem nextGo_map_priority (mx : Nat) :
    ∀ fuel l, ((nextGo mx fuel l).1).map (fun it => it.priority) =
      l.map (fun it => it.priority) := by
  intro fuel
  induction fuel with
  | zero =>
    intro l
    rw [nextGo]
    by_cases hg : countOpen l ≥ mx ∨ l.length = countOpen l
    · rw [if_pos hg]
    · rw [if_neg hg]
      cases findInit l <;> rfl
  | succ f ih =>
    intro l
    rw [nextGo]
    by_cases hg : countOpen l ≥ mx ∨ l.length = countOpen l
    · rw [if_pos hg]
    · rw [if_neg hg]
      cases findInit l with
      | none => rfl
      | some it =>
        dsimp only
        rw [ih (setOpen l it.cid), map_priority_setOpen]

theorem next_map_priority (mx : Nat) (l : List Item) :
    ((next mx l).1).map (fun it => it.priority) =
      l.map (fun it => it.priority) :=
  nextGo_map_priority mx (countInit l) l

theorem findLastOpen_mem (l : List Item) (o : Item)
    (h : findLastOpen l = some o) : o ∈ l ∧ o.state = .OPEN := by
  rw [findLastOpen] at h
  refine ⟨List.mem_reverse.mp (List.mem_of_find?_eq_some h), ?_⟩
  have := List.find?_some h
  simpa using this

theorem find?_open_le (lr : List Item) (o : Item)
    (hp : List.Pairwise (fun a b => a.priority ≤ b.priority) lr)
    (h : lr.find? (fun it => it.state == .OPEN) = some o) :
    ∀ x ∈ lr, x.state = .OPEN → o.priority ≤ x.priority := by
  induction lr with
  | nil => simp at h
  | cons a t ih =>
    rw [List.find?_cons] at h
    by_cases ha : (a.state == CState.OPEN) = true
    · rw [ha] at h
      injection h with h2
      subst h2
      intro x hx _
      rcases List.mem_cons.mp hx with rfl | hxt
      · exact le_refl _
      · exact (List.pairwise_cons.mp hp).1 x hxt
    · have hb : (a.state == CState.OPEN) = false := by simpa using ha
      rw [hb] at h
      intro x hx hxs
      rcases List.mem_cons.mp hx with rfl | hxt
      · exact absurd (by simp [hxs]) ha
      · exact ih (List.pairwise_cons.mp hp).2 h x hxt hxs

/-- In a descending-sorted queue, `findLast(OPEN)` really is a
lowest-priority open entry. -/
theorem findLastOpen_min (l : List Item) (o : Item)
    (hs : SortedDesc l) (h : findLastOpen l = some o) :
    ∀ x ∈ l, x.state = .OPEN → o.priority ≤ x.priority := by
  have hp : List.Pairwise (fun a b => a.priority ≤ b.priority) l.reverse :=
    (List.pairwise_reverse).mpr hs
  intro x hx hxs
  exact find?_open_le l.reverse o hp h x (List.mem_reverse.mpr hx) hxs

/-- Exhaustive case analysis of `requestFreeSlot`. -/
theorem rfs_cases (cfg : Cfg) (l : List Item) (n : Item) :
    (requestFreeSlot cfg l n = (true, l, []) ∧
      (findLastOpen l = none ∨ countOpen l < cfg.maxConnections)) ∨
    (∃ o, findLastOpen l = some o ∧ ¬ countOpen l < cfg.maxConnections ∧
      o.priority < n.priority * cfg.threshold ∧
      requestFreeSlot cfg l n =
        (true, l.filter (fun x => x.cid != o.cid), [.closed o.cid])) ∨
    (∃ o, findLastOpen l = some o ∧ ¬ countOpen l < cfg.maxConnections ∧
      ¬ o.priority < n.priority * cfg.threshold ∧
      requestFreeSlot cfg l n = (false, l, [])) := by
  rw [requestFreeSlot]
  cases ho : findLastOpen l with
  | none => exact Or.inl ⟨rfl, Or.inl rfl⟩
  | some o =>
    dsimp only
    by_cases hc : countOpen l < cfg.maxConnections
    · rw [if_pos hc]
      exact Or.inl ⟨rfl, Or.inr hc⟩
    · rw [if_neg hc]
      by_cases hp : o.priority < n.priority * cfg.threshold
      · rw [if_pos hp]
        exact Or.inr (Or.inl ⟨o, rfl, hc, hp, rfl⟩)
      · rw [if_neg hp]
        exact Or.inr (Or.inr ⟨o, rfl, hc, hp, rfl⟩)

theorem findIdx?_spec (p : Item → Bool) (l : List Item) (i : Nat)
    (h : l.findIdx? p = some i) :
    ∃ a, l.get? i = some a ∧ p a = true := by
  rcases List.findIdx?_eq_some_iff_getElem.mp h with ⟨hlt, hp, _⟩
  refine ⟨l[i], ?_, hp⟩
  rw [List.get?_eq_getElem?]
  exact List.getElem?_eq_getElem hlt

/-- The queue stays sorted through `update` (every successful path ends in
a full re-sort, a filter of a sorted list, or leaves the list alone). -/
theorem update_sorted (cfg : Cfg) (l : List Item) (idx : Nat) (p : ℚ)
    (l2 : List Item) (e : List Eff) (hs : SortedDesc l)
    (h : update cfg l idx p = .ok (l2, e)) : SortedDesc l2 := by
  rw [update] at h
  cases hget : l.get? idx with
  | none =>
    rw [hget] at h
    dsimp only at h
    exact absurd h (by simp)
  | some item =>
    rw [hget] at h
    dsimp only at h
    by_cases h1 : item.priority = p
    · rw [if_pos h1] at h
      injection h with h2
      injection h2 with h3 h4
      rw [← h3]
      exact hs
    · rw [if_neg h1] at h
      by_cases h2 : item.state = .OPEN ∧ p < item.priority ∧
          countOpen l = cfg.maxConnections
      · rw [if_pos h2] at h
        cases hw : findInit l with
        | none =>
          rw [hw] at h
          dsimp only at h
          exact absurd h (by simp)
        | some w =>
          rw [hw] at h
          dsimp only at h
          by_cases h3 : w.priority * cfg.threshold > p
          · rw [if_pos h3] at h
            injection h with h4
            injection h4 with h5 h6
            rw [← h5]
            exact sortedDesc_filter l _ hs
          · rw [if_neg h3] at h
            injection h with h4
            injection h4 with h5 h6
            rw [← h5]
            exact sortedDesc_sortDesc _
      · rw [if_neg h2] at h
        by_cases h3 : item.state = .INIT ∧ p > item.priority
        · rw [if_pos h3] at h
          rcases rfs_cases cfg l item with ⟨heq, _⟩ | ⟨o, _, _, _, heq⟩ |
              ⟨o, _, _, _, heq⟩ <;>
            · rw [heq] at h
              dsimp only at h
              injection h with h4
              injection h4 with h5 h6
              rw [← h5]
              exact sortedDesc_sortDesc _
        · rw [if_neg h3] at h
          injection h with h4
          injection h4 with h5 h6
          rw [← h5]
          exact sortedDesc_sortDesc _

/-- The queue stays sorted through `push`. -/
theorem push_sorted (cfg : Cfg) (l : List Item) (item : Item)
    (hs : SortedDesc l) : SortedDesc (push cfg l item).1 := by
  rw [push]
  by_cases h1 : item.state = .OPEN
  · rw [if_pos h1]
    rcases rfs_cases cfg l item with ⟨heq, _⟩ | ⟨o, _, _, _, heq⟩ |
        ⟨o, _, _, _, heq⟩ <;> rw [heq] <;> dsimp only
    · exact sortedDesc_sortDesc _
    · exact sortedDesc_sortDesc _
    · exact hs
  · rw [if_neg h1]
    by_cases h2 : item.state = .INIT
    · rw [if_pos h2]
      rcases rfs_cases cfg l item with ⟨heq, _⟩ | ⟨o, _, _, _, heq⟩ |
          ⟨o, _, _, _, heq⟩ <;> rw [heq] <;> dsimp only <;>
        exact sortedDesc_sortDesc _
    · rw [if_neg h2]
      exact sortedDesc_sortDesc _

/-- The queue stays sorted through `schedule`. -/
theorem schedule_sorted (cfg : Cfg) (l : List Item) (c : Nat) (ext : CState)
    (p : ℚ) (seq : Nat) (l2 : List Item) (e : List Eff) (hs : SortedDesc l)
    (h : schedule cfg l c ext p seq = .ok (l2, e)) : SortedDesc l2 := by
  rw [schedule] at h
  by_cases h1 : (match l.find? (fun it => it.cid == c) with
      | some it => it.state
      | none => ext) = CState.CLOSED
  · rw [if_pos h1] at h
    injection h with h2
    injection h2 with h3 h4
    rw [← h3]
    exact hs
  · rw [if_neg h1] at h
    cases hidx : l.findIdx? (fun it => it.cid == c) with
    | some idx =>
      rw [hidx] at h
      dsimp only at h
      exact update_sorted cfg l idx p l2 e hs h
    | none =>
      rw [hidx] at h
      dsimp only at h
      injection h with h2
      rw [Prod.ext_iff] at h2
      obtain ⟨h3, h4⟩ := h2
      dsimp only at h3
      rw [← h3]
      exact push_sorted cfg l _ hs

/-- Every event step keeps the queue sorted. -/
theorem stepEv_sorted (cfg : Cfg) (s s2 : St) (e : Ev) (effs : List Eff)
    (hs : SortedDesc s.list) (h : stepEv cfg s e = .ok (s2, effs)) :
    SortedDesc s2.list := by
  cases e with
  | sched c ext p =>
    rw [stepEv] at h
    cases hsch : schedule cfg s.list c ext p s.counter with
    | error u =>
      rw [hsch] at h
      dsimp only at h
      exact absurd h (by simp)
    | ok r =>
      obtain ⟨l2x, ex⟩ := r
      rw [hsch] at h
      dsimp only at h
      injection h with h2
      injection h2 with h3 h4
      rw [← h3]
      exact schedule_sorted cfg s.list c ext p s.counter l2x ex hs hsch
  | done c =>
    rw [stepEv] at h
    injection h with h2
    injection h2 with h3 h4
    rw [← h3]
    refine sortedDesc_of_map_priority_eq s.list _ ?_ hs
    rw [handleConnectionComplete, next_map_priority, map_priority_setClosed]

/-- P (spec ordering, first half): every reachable queue is sorted by
priority descending. -/
theorem reach_sorted (cfg : Cfg) (s : St) (h : Reach cfg s) :
    SortedDesc s.list := by
  induction h with
  | base => exact List.Pairwise.nil
  | step hr hstep ih => exact stepEv_sorted _ _ _ _ _ ih hstep

/-- A queue satisfying the stop condition of `next()` is left untouched,
with no `open()` or `close()` calls. -/
theorem next_fix (mx : Nat) (l : List Item)
    (h : countOpen l ≥ mx ∨ l.length = countOpen l ∨ findInit l = none) :
    next mx l = (l, []) := by
  rw [next_unfold]
  by_cases hg : countOpen l ≥ mx ∨ l.length = countOpen l
  · rw [if_pos hg]
  · rw [if_neg hg]
    have hf : findInit l = none := by tauto
    rw [hf]

/-- Any queue `next()` leaves behind satisfies its stop condition. -/
theorem next_post (mx : Nat) (l : List Item) :
    countOpen (next mx l).1 ≥ mx ∨
    (next mx l).1.length = countOpen (next mx l).1 ∨
    findInit (next mx l).1 = none := by
  generalize hn : countInit l = n
  induction n using Nat.strong_induction_on generalizing l with
  | _ n ih =>
    rw [next_unfold]
    by_cases hg : countOpen l ≥ mx ∨ l.length = countOpen l
    · rw [if_pos hg]
      rcases hg with h | h
      · exact Or.inl h
      · exact Or.inr (Or.inl h)
    · rw [if_neg hg]
      cases hf : findInit l with
      | none => exact Or.inr (Or.inr hf)
      | some it =>
        have hlt := countInit_setOpen_lt l it hf
        dsimp only
        exact ih (countInit (setOpen l it.cid)) (by omega) (setOpen l it.cid) rfl

/-- C3: the reconciliation pass (`next()`) is idempotent: on any queue it
leaves behind, re-invoking it issues no `open()` or `close()` calls and
leaves the queue unchanged — a fixed point after one pass. -/
theorem c3_reconcile_idempotent (mx : Nat) (l : List Item) :
    next mx (next mx l).1 = ((next mx l).1, []) :=
  next_fix mx (next mx l).1 (next_post mx l)

/-- C10: the query operations return `0` as a default on empty projections:
`lowestOpenPriority()` is `0` when no entry is `OPEN`, and
`highestWaitingPriority()` is `0` when no entry is `INIT`. -/
theorem c10_zero_defaults (l : List Item) :
    ((∀ x ∈ l, x.state ≠ .OPEN) → lowestOpenPriority l = 0) ∧
    ((∀ x ∈ l, x.state ≠ .INIT) → highestWaitingPriority l = 0) := by
  constructor
  · intro h
    rw [lowestOpenPriority]
    have hn : findLastOpen l = none := by
      rw [findLastOpen, List.find?_eq_none]
      intro x hx
      simp [h x (List.mem_reverse.mp hx)]
    rw [hn]
  · intro h
    rw [highestWaitingPriority]
    have hn : findInit l = none := by
      rw [findInit, List.find?_eq_none]
      intro x hx
      simp [h x hx]
    rw [hn]

/-- Witness for C10 at a concrete queue holding only a `CLOSED` entry. -/
theorem c10_zero_defaults_witness :
    lowestOpenPriority [⟨1, 5, .CLOSED, 0⟩] = 0 ∧
    highestWaitingPriority [⟨1, 5, .CLOSED, 0⟩] = 0 :=
  ⟨(c10_zero_defaults [⟨1, 5, .CLOSED, 0⟩]).1 (by decide),
   (c10_zero_defaults [⟨1, 5, .CLOSED, 0⟩]).2 (by decide)⟩

/-- C1: the capacity invariant fails on the code.  With `maxConnections`
one and threshold `0.7`, the schedule sequence with priorities `-8`,
`-12`, `-9` and a re-schedule of the second connection at `-3` drives the
queue to two `OPEN` entries: `update` reuses the pre-eviction index after
`requestFreeSlot` shrank the list, and Immutable's `list.update` writes
past the end, duplicating the entry. -/
theorem c1_capacity_exceeded :
    runEvents ⟨1, 7/10⟩ st0
      [.sched 1 .INIT (-8), .sched 2 .INIT (-12), .sched 3 .INIT (-9),
       .done 1, .sched 2 .INIT (-3)] =
      .ok (⟨[⟨2, -3, .OPEN, 1⟩, ⟨2, -12, .OPEN, 1⟩], 4⟩,
        [.opened 1, .closed 1, .opened 3, .closed 3, .opened 2]) ∧
    (⟨1, 7/10⟩ : Cfg).maxConnections <
      countOpen [⟨2, -3, .OPEN, 1⟩, ⟨2, -12, .OPEN, 1⟩] :=
  ⟨rfl, by decide⟩

/-- C6: the same stale-index trace as `c1_capacity_exceeded` leaves two
queue entries for connection `2`, violating the one-entry-per-identity
invariant. -/
theorem c6_duplicate_entries :
    runEvents ⟨1, 7/10⟩ st0
      [.sched 1 .INIT (-8), .sched 2 .INIT (-12), .sched 3 .INIT (-9),
       .done 1, .sched 2 .INIT (-3)] =
      .ok (⟨[⟨2, -3, .OPEN, 1⟩, ⟨2, -12, .OPEN, 1⟩], 4⟩,
        [.opened 1, .closed 1, .opened 3, .closed 3, .opened 2]) ∧
    ¬ (([⟨2, -3, .OPEN, 1⟩, ⟨2, -12, .OPEN, 1⟩] : List Item).map
        (fun it => it.cid)).Nodup :=
  ⟨rfl, by decide⟩

/-- C7: the completion handler of this variant does not remove the queue
entry: after connection `1` completes, its entry is still in the queue
with state `CLOSED`. -/
theorem c7_closed_entry_remains :
    runEvents ⟨1, 7/10⟩ st0 [.sched 1 .INIT 5, .done 1] =
      .ok (⟨[⟨1, 5, .CLOSED, 0⟩], 1⟩, [.opened 1]) ∧
    ∃ x ∈ ([⟨1, 5, .CLOSED, 0⟩] : List Item),
      x.cid = 1 ∧ x.state = .CLOSED :=
  ⟨rfl, by decide⟩

/-- C8: `schedule` can throw.  With one slot occupied by the same (OPEN)
connection and no waiting entry, re-scheduling it at a lower priority
dereferences `list.find(INIT).priority` on `undefined` inside `update` —
a `TypeError`, modelled as the `.error` result. -/
theorem c8_schedule_throws :
    runEvents ⟨1, 7/10⟩ st0 [.sched 1 .INIT 10, .sched 1 .INIT 5] =
      .error () := rfl

/-- C4: the force-close half of the claim holds (an out-of-band `OPEN`
connection that cannot preempt is closed and not enqueued), but the call
reports nothing: every path of `schedule` returns `undefined`, never
"rejected" or "accepted". -/
theorem c4_force_close_returns_undefined :
    schedule ⟨1, 7/10⟩ [⟨1, 20, .OPEN, 0⟩] 2 .OPEN 3 1 =
      .ok ([⟨1, 20, .OPEN, 0⟩], [.closed 2]) ∧
    scheduleReturnValue = none :=
  ⟨rfl, rfl⟩

/-- C5 counterexample: with `preemptionThreshold = 1` preemption still
occurs — scheduling priority 10 against an open priority-5 connection
closes it (`5 < 10 * 1`). -/
theorem c5_counterexample :
    runEvents ⟨1, 1⟩ st0 [.sched 1 .INIT 5, .sched 2 .INIT 10] =
      .ok (⟨[⟨2, 10, .OPEN, 1⟩], 2⟩, [.opened 1, .closed 1, .opened 2]) ∧
    Eff.closed 1 ∈ [Eff.opened 1, Eff.closed 1, Eff.opened 2] :=
  ⟨rfl, by decide⟩

/-- C9 counterexample: a priority update breaks the enqueue-order
tie-break.  Connection 2 (enqueued second, `seq` 1) is updated from 7 to
5 and the stable sort leaves it in front of connection 1 (`seq` 0) at the
same priority. -/
theorem c9_counterexample :
    runEvents ⟨6, 7/10⟩ st0
      [.sched 1 .INIT 5, .sched 2 .INIT 7, .sched 2 .INIT 5] =
      .ok (⟨[⟨2, 5, .OPEN, 1⟩, ⟨1, 5, .OPEN, 0⟩], 3⟩,
        [.opened 1, .opened 2]) ∧
    ¬ FifoTies [⟨2, 5, .OPEN, 1⟩, ⟨1, 5, .OPEN, 0⟩] :=
  ⟨rfl, by unfold FifoTies; decide⟩

/-- C9 amended: after every schedule call (indeed in every reachable
state) the queue is sorted by priority descending; ties keep the previous
relative order (stable sort), which is enqueue order for entries whose
priority was never updated — as in Scenario C, where with capacity 2 and
threshold `0.7`, scheduling connections 1, 2, 3 all at priority 5 opens
the first two in FIFO order, leaves 3 waiting, and issues no close. -/
theorem c9_amended :
    (∀ (cfg : Cfg) (s : St), Reach cfg s → SortedDesc s.list) ∧
    (runEvents ⟨2, 7/10⟩ st0
      [.sched 1 .INIT 5, .sched 2 .INIT 5, .sched 3 .INIT 5] =
      .ok (⟨[⟨1, 5, .OPEN, 0⟩, ⟨2, 5, .OPEN, 1⟩, ⟨3, 5, .INIT, 2⟩], 3⟩,
        [.opened 1, .opened 2]) ∧
     FifoTies [⟨1, 5, .OPEN, 0⟩, ⟨2, 5, .OPEN, 1⟩, ⟨3, 5, .INIT, 2⟩]) :=
  ⟨reach_sorted, rfl, by unfold FifoTies; decide⟩

/-- Witness for C9 amended: the sorted invariant evaluated on the
concrete reachable state after `schedule(1, 5)` with capacity 1. -/
theorem c9_amended_witness :
    SortedDesc [(⟨1, 5, .OPEN, 0⟩ : Item)] :=
  c9_amended.1 ⟨1, 7/10⟩ ⟨[⟨1, 5, .OPEN, 0⟩], 1⟩
    (@Reach.step ⟨1, 7/10⟩ st0 ⟨[⟨1, 5, .OPEN, 0⟩], 1⟩
      (.sched 1 .INIT 5) [.opened 1] Reach.base rfl)

theorem find?_cid_eq_none (l : List Item) (c : Nat)
    (hfresh : ∀ x ∈ l, x.cid ≠ c) :
    l.find? (fun it => it.cid == c) = none :=
  List.find?_eq_none.mpr (fun x hx => by simp [hfresh x hx])

theorem findIdx?_cid_eq_none (l : List Item) (c : Nat)
    (hfresh : ∀ x ∈ l, x.cid ≠ c) :
    l.findIdx? (fun it => it.cid == c) = none :=
  List.findIdx?_eq_none_iff.mpr (fun x hx => by simp [hfresh x hx])

/-- C2: with every slot occupied and both the waiting and the active set
non-empty, scheduling a fresh `INIT` connection at priority `p` evicts the
lowest-priority open connection `o` exactly when
`o.priority < p * threshold`; the evicted connection is closed and its
entry removed entirely (not returned to waiting) while the newcomer is
opened into the freed slot; otherwise nothing is closed, every entry
stays, and the newcomer waits. -/
theorem c2_preemption (cfg : Cfg) (l : List Item) (o w : Item) (c : Nat)
    (p : ℚ) (seq : Nat)
    (hsorted : SortedDesc l)
    (hfull : countOpen l = cfg.maxConnections)
    (ho : findLastOpen l = some o)
    (hw : findInit l = some w)
    (hfresh : ∀ x ∈ l, x.cid ≠ c) :
    (∀ x ∈ l, x.state = .OPEN → o.priority ≤ x.priority) ∧
    ∃ l2 effs, schedule cfg l c .INIT p seq = .ok (l2, effs) ∧
      (if o.priority < p * cfg.threshold then
        effs = [.closed o.cid, .opened c] ∧
        (∀ x ∈ l2, x.cid ≠ o.cid) ∧
        (∃ x ∈ l2, x.cid = c ∧ x.state = .OPEN)
      else
        effs = [] ∧ o ∈ l2 ∧ (∀ x ∈ l, x ∈ l2) ∧
        (∃ x ∈ l2, x.cid = c ∧ x.state = .INIT)) := by
  have homem := findLastOpen_mem l o ho
  refine ⟨findLastOpen_min l o hsorted ho, ?_⟩
  rw [schedule, find?_cid_eq_none l c hfresh]
  dsimp only
  rw [if_neg (by decide), findIdx?_cid_eq_none l c hfresh]
  dsimp only
  rw [push]
  rw [if_neg (by simp), if_pos rfl]
  rw [requestFreeSlot, ho]
  dsimp only
  rw [if_neg (by omega)]
  by_cases hp : o.priority < p * cfg.threshold
  · rw [if_pos hp]
    dsimp only
    refine ⟨_, _, rfl, ?_⟩
    rw [if_pos hp]
    refine ⟨rfl, ?_, ?_⟩
    · intro x hx
      rw [mem_sortDesc] at hx
      rcases List.mem_append.mp hx with hx1 | hx2
      · rcases List.mem_filter.mp hx1 with ⟨_, hne⟩
        simpa using hne
      · rcases List.mem_singleton.mp hx2 with rfl
        exact fun hcontra => hfresh o homem.1 hcontra.symm
    · refine ⟨⟨c, p, .OPEN, seq⟩, ?_, rfl, rfl⟩
      rw [mem_sortDesc]
      exact List.mem_append.mpr (Or.inr (List.mem_singleton.mpr rfl))
  · rw [if_neg hp]
    dsimp only
    refine ⟨_, _, rfl, ?_⟩
    rw [if_neg hp]
    refine ⟨rfl, ?_, ?_, ?_⟩
    · rw [mem_sortDesc]
      exact List.mem_append.mpr (Or.inl homem.1)
    · intro x hx
      rw [mem_sortDesc]
      exact List.mem_append.mpr (Or.inl hx)
    · refine ⟨⟨c, p, .INIT, seq⟩, ?_, rfl, rfl⟩
      rw [mem_sortDesc]
      exact List.mem_append.mpr (Or.inr (List.mem_singleton.mpr rfl))

/-- Witness for C2 at Scenario A/B: capacity 1, threshold `0.7`, open
connection 1 at priority 10, waiting connection 2 at priority 9;
scheduling connection 3 at priority 20 preempts (`10 < 14`). -/
theorem c2_preemption_witness :
    (∀ x ∈ [(⟨1, 10, .OPEN, 0⟩ : Item), ⟨2, 9, .INIT, 1⟩],
      x.state = CState.OPEN → (10 : ℚ) ≤ x.priority) ∧
    ∃ l2 effs, schedule ⟨1, 7/10⟩ [⟨1, 10, .OPEN, 0⟩, ⟨2, 9, .INIT, 1⟩]
        3 .INIT 20 2 = .ok (l2, effs) ∧
      (if (10 : ℚ) < 20 * (7/10) then
        effs = [.closed 1, .opened 3] ∧
        (∀ x ∈ l2, x.cid ≠ 1) ∧
        (∃ x ∈ l2, x.cid = 3 ∧ x.state = .OPEN)
      else
        effs = [] ∧ (⟨1, 10, .OPEN, 0⟩ : Item) ∈ l2 ∧
        (∀ x ∈ [(⟨1, 10, .OPEN, 0⟩ : Item), ⟨2, 9, .INIT, 1⟩], x ∈ l2) ∧
        (∃ x ∈ l2, x.cid = 3 ∧ x.state = .INIT)) :=
  c2_preemption ⟨1, 7/10⟩ [⟨1, 10, .OPEN, 0⟩, ⟨2, 9, .INIT, 1⟩]
    ⟨1, 10, .OPEN, 0⟩ ⟨2, 9, .INIT, 1⟩ 3 20 2
    (by unfold SortedDesc; decide) (by decide) (by decide) (by decide)
    (by decide)

/-- Every close call issued by `push` is either the force-close of the
pushed connection itself, or the eviction of an open entry whose priority
is below `item.priority * threshold`. -/
theorem push_effs_closed (cfg : Cfg) (l : List Item) (item : Item) (j : Nat)
    (hj : Eff.closed j ∈ (push cfg l item).2) :
    j = item.cid ∨
    ∃ x ∈ l, x.cid = j ∧ x.state = .OPEN ∧
      x.priority < item.priority * cfg.threshold := by
  rw [push] at hj
  by_cases h1 : item.state = .OPEN
  · rw [if_pos h1] at hj
    rcases rfs_cases cfg l item with ⟨heq, _⟩ | ⟨o, ho, _, hp, heq⟩ |
        ⟨o, ho, _, hp, heq⟩ <;> rw [heq] at hj <;> dsimp only at hj
    · exact absurd hj (by simp)
    · have hmem := findLastOpen_mem l o ho
      have hji : j = o.cid := by simpa using hj
      exact Or.inr ⟨o, hmem.1, hji.symm, hmem.2, hp⟩
    · exact Or.inl (by simpa using hj)
  · rw [if_neg h1] at hj
    by_cases h2 : item.state = .INIT
    · rw [if_pos h2] at hj
      rcases rfs_cases cfg l item with ⟨heq, _⟩ | ⟨o, ho, _, hp, heq⟩ |
          ⟨o, ho, _, hp, heq⟩ <;> rw [heq] at hj <;> dsimp only at hj
      · exact absurd hj (by simp)
      · have hmem := findLastOpen_mem l o ho
        have hji : j = o.cid := by simpa using hj
        exact Or.inr ⟨o, hmem.1, hji.symm, hmem.2, hp⟩
      · exact absurd hj (by simp)
    · rw [if_neg h2] at hj
      exact absurd hj (by simp)

/-- Every close call issued by `update` is either aimed at the updated
connection itself, or evicts an open entry whose priority is below the
updated entry's old priority times the threshold (and the branch requires
the new priority to exceed the old one). -/
theorem update_effs_closed (cfg : Cfg) (l : List Item) (idx : Nat) (p : ℚ)
    (l2 : List Item) (e : List Eff) (j : Nat)
    (h : update cfg l idx p = .ok (l2, e)) (hj : Eff.closed j ∈ e) :
    (∃ item, l.get? idx = some item ∧ j = item.cid) ∨
    (∃ item o, l.get? idx = some item ∧ item.state = .INIT ∧
      p > item.priority ∧ o ∈ l ∧ o.cid = j ∧ o.state = .OPEN ∧
      o.priority < item.priority * cfg.threshold) := by
  rw [update] at h
  cases hget : l.get? idx with
  | none =>
    rw [hget] at h
    dsimp only at h
    exact absurd h (by simp)
  | some item =>
    rw [hget] at h
    dsimp only at h
    by_cases h1 : item.priority = p
    · rw [if_pos h1] at h
      injection h with h2
      injection h2 with h3 h4
      rw [← h4] at hj
      exact absurd hj (by simp)
    · rw [if_neg h1] at h
      by_cases h2 : item.state = .OPEN ∧ p < item.priority ∧
          countOpen l = cfg.maxConnections
      · rw [if_pos h2] at h
        cases hwf : findInit l with
        | none =>
          rw [hwf] at h
          dsimp only at h
          exact absurd h (by simp)
        | some w =>
          rw [hwf] at h
          dsimp only at h
          by_cases h3 : w.priority * cfg.threshold > p
          · rw [if_pos h3] at h
            injection h with h4
            injection h4 with h5 h6
            rw [← h6] at hj
            exact Or.inl ⟨item, rfl, by simpa using hj⟩
          · rw [if_neg h3] at h
            injection h with h4
            injection h4 with h5 h6
            rw [← h6] at hj
            exact absurd hj (by simp)
      · rw [if_neg h2] at h
        by_cases h3 : item.state = .INIT ∧ p > item.priority
        · rw [if_pos h3] at h
          rcases rfs_cases cfg l item with ⟨heq, _⟩ | ⟨o, ho, _, hp, heq⟩ |
              ⟨o, ho, _, hp, heq⟩
          · rw [heq] at h
            dsimp only at h
            injection h with h4
            injection h4 with h5 h6
            rw [← h6] at hj
            exact absurd hj (by simp)
          · rw [heq] at h
            dsimp only at h
            injection h with h4
            injection h4 with h5 h6
            rw [← h6] at hj
            have hmem := findLastOpen_mem l o ho
            have hji : j = o.cid := by simpa using hj
            exact Or.inr ⟨item, o, rfl, h3.1, h3.2, hmem.1,
              hji.symm, hmem.2, hp⟩
          · rw [heq] at h
            dsimp only at h
            injection h with h4
            injection h4 with h5 h6
            rw [← h6] at hj
            exact absurd hj (by simp)
        · rw [if_neg h3] at h
          injection h with h4
          injection h4 with h5 h6
          rw [← h6] at hj
          exact absurd hj (by simp)

/-- C5 amended: with `preemptionThreshold = 1` a schedule call can only
close a connection other than the scheduled one if that connection was
open at a priority strictly below the scheduled priority; equal or higher
priority open connections are never preempted (only that much of "1
disables preemption" holds — strictly higher-priority newcomers do still
preempt). -/
theorem c5_amended (cfg : Cfg) (l : List Item) (c : Nat) (ext : CState)
    (p : ℚ) (seq : Nat) (l2 : List Item) (effs : List Eff) (j : Nat)
    (ht : cfg.threshold = 1)
    (h : schedule cfg l c ext p seq = .ok (l2, effs))
    (hj : Eff.closed j ∈ effs) (hne : j ≠ c) :
    ∃ x ∈ l, x.cid = j ∧ x.state = .OPEN ∧ x.priority < p := by
  rw [schedule] at h
  by_cases h1 : (match l.find? (fun it => it.cid == c) with
      | some it => it.state
      | none => ext) = CState.CLOSED
  · rw [if_pos h1] at h
    injection h with h2
    injection h2 with h3 h4
    rw [← h4] at hj
    exact absurd hj (by simp)
  · rw [if_neg h1] at h
    cases hidx : l.findIdx? (fun it => it.cid == c) with
    | some idx =>
      rw [hidx] at h
      dsimp only at h
      rcases findIdx?_spec (fun it => it.cid == c) l idx hidx with
        ⟨a, hga, hpa⟩
      have hac : a.cid = c := by simpa using hpa
      rcases update_effs_closed cfg l idx p l2 effs j h hj with
        ⟨item, hgi, hji⟩ | ⟨item, o, hgi, hsi, hpi, hol, hoj, hos, holt⟩
      · rw [hga] at hgi
        injection hgi with hgi2
        rw [← hgi2] at hji
        exact absurd (hji.trans hac) hne
      · rw [hga] at hgi
        injection hgi with hgi2
        rw [← hgi2] at hsi hpi holt
        rw [ht, mul_one] at holt
        exact ⟨o, hol, hoj, hos, lt_trans holt hpi⟩
    | none =>
      rw [hidx] at h
      dsimp only at h
      injection h with h2
      rw [Prod.ext_iff] at h2
      obtain ⟨h3, h4⟩ := h2
      dsimp only at h4
      rw [← h4] at hj
      rcases push_effs_closed cfg l _ j hj with hji | ⟨x, hxl, hxj, hxs, hxp⟩
      · exact absurd hji hne
      · rw [ht, mul_one] at hxp
        exact ⟨x, hxl, hxj, hxs, hxp⟩

/-- Witness for C5 amended: threshold 1, open connection 1 at priority 5,
schedule connection 2 at priority 10; the close aimed at connection 1 is
licensed because `5 < 10`. -/
theorem c5_amended_witness :
    ∃ x ∈ [(⟨1, 5, .OPEN, 0⟩ : Item)],
      x.cid = 1 ∧ x.state = .OPEN ∧ x.priority < 10 :=
  c5_amended ⟨1, 1⟩ [⟨1, 5, .OPEN, 0⟩] 2 .INIT 10 1
    [⟨2, 10, .OPEN, 1⟩] [.closed 1, .opened 2] 1
    rfl rfl (by decide) (by decide)

end ConnMgr
